import Mathlib

/-!
Shallow embedding of the `typedecl` package (file `typedecl.go`): the
declaration scanner `All`, the struct-identity extraction `structValue`,
and the diff engine `Collection.Diff` / `Diff.Zero` / `Diff.String`.

Conventions of the embedding:
* Go strings are Lean `String`s; `fmt.Sprintf("%#v", x)` results are carried
  as data on the modelled runtime values (the formatting primitive is an
  external capability of the host).
* Go panics are modelled as explicit error constructors, alongside the
  recoverable `error` return values, in an `Except` result.
* The Go map `map[string]Match` is modelled as an association list with
  last-write-wins insertion; Go map iteration-order nondeterminism shows up
  only when listing the missing matches, where the source imposes no order.
* `p.TypesInfo.Defs` (a Go map over which `All` ranges) is modelled as a
  `List Def`; the unspecified iteration order is modelled by quantifying
  over permutations of that list.
-/

/-- Match models `typedecl.Match`: one declared value found by the scanner
(`Name` is the declaration identifier, `Value` its literal source text). -/
structure Match where
  Name : String
  Value : String
deriving DecidableEq, Repr

/-- Collection models `typedecl.Collection`; the field `type` models the Go
field `Type` (the resolved type string), which cannot be named `Type` in
Lean. -/
structure Collection where
  type : String
  FieldName : String
  Matches : List Match
deriving DecidableEq, Repr

/-- Diff models `typedecl.Diff`: the missing declared matches and the extra
runtime values. -/
structure Diff where
  Missing : Collection
  Extra : List String
deriving DecidableEq, Repr

/-- Zero models `Diff.Zero`: `len(d.Missing.Matches) == 0 && len(d.Extra) == 0`. -/
def Diff.Zero (d : Diff) : Bool :=
  d.Missing.Matches.length == 0 && d.Extra.length == 0

/-- diffString is the body of `Diff.String`: the message is accumulated
exactly as the Go code appends to `msg`, and `"<Diff{}>"` is returned when
the accumulated message is empty. -/
def diffString (d : Diff) : String :=
  let msg1 : String :=
    if d.Missing.Matches.length > 0 then
      d.Missing.Matches.foldl
        (fun acc v => acc ++ ("\t" ++ v.Name ++ " = " ++ v.Value ++ "\n"))
        "Matches declared but not part of actual:\n"
    else ""
  let msg2 : String :=
    if d.Extra.length > 0 then
      d.Extra.foldl (fun acc v => acc ++ ("\t" ++ v ++ "\n"))
        (msg1 ++ "Extra values provided but not part of Matches:\n")
    else msg1
  if msg2.length > 0 then msg2 else "<Diff\x7b\x7d>"

/-- String models `Diff.String` (named as in the source; the body lives in
`diffString` because the declaration's own name would shadow the string
type inside its definition). -/
def Diff.String (d : Diff) :=
  diffString d

/-- GoField models one field of a runtime struct value as seen through
reflection: its name, the result of `Tag.Lookup("typedecl")` on it, and the
`%#v` rendering of the field's value. -/
structure GoField where
  name : String
  typedeclTag : Option String
  repr : String
deriving DecidableEq, Repr

/-- GoStruct models a struct-kinded runtime value: its reflected type string,
its fields, and the `%#v` rendering of the whole value. -/
structure GoStruct where
  typeName : String
  fields : List GoField
  repr : String
deriving DecidableEq, Repr

/-- GoValue models an element of the `actual` slice handed to `Diff`:
either a value of non-struct kind (carrying its `%#v` rendering) or a
struct-kinded value. -/
inductive GoValue where
  | basic (repr : String)
  | structVal (s : GoStruct)
deriving DecidableEq, Repr

/-- DiffPanic models the one panic the diff engine can raise past the
slice-argument precondition: `panic("Diff: collection is empty")` in
`fieldValue`. -/
inductive DiffPanic where
  | collectionEmpty
deriving DecidableEq, Repr

/-- hasSuffix models `strings.HasSuffix`. -/
def hasSuffix (s suffix : String) : Bool :=
  suffix.data.isSuffixOf s.data

/-- fieldValue models `Collection.fieldValue`: panics when the collection has
no matches, otherwise returns the `%#v` of the identity field, or `""` when
the type, the field, or its `typedecl:"identifier"` tag does not line up. -/
def Collection.fieldValue (c : Collection) (s : GoStruct) : Except DiffPanic String :=
  if c.Matches.length == 0 then .error .collectionEmpty
  else if !hasSuffix c.type s.typeName then .ok ""
  else
    match s.fields.find? (fun f => f.name == c.FieldName) with
    | none => .ok ""
    | some f =>
      match f.typedeclTag with
      | none => .ok ""
      | some t => if t == "identifier" then .ok f.repr else .ok ""

/-- valueFrom models `Collection.valueFrom`: struct-kinded values go through
`fieldValue` with a fallback to the whole-value `%#v`, anything else is its
`%#v` rendering. -/
def Collection.valueFrom (c : Collection) (item : GoValue) : Except DiffPanic String :=
  match item with
  | .basic r => .ok r
  | .structVal s =>
    match c.fieldValue s with
    | .error e => .error e
    | .ok v => if v == "" then .ok s.repr else .ok v

/-- mapInsert models `values[k] = v` on a Go `map[string]Match`:
last-write-wins on an existing key, append otherwise. -/
def mapInsert (m : List (String × Match)) (k : String) (v : Match) : List (String × Match) :=
  if (m.lookup k).isSome then m.map (fun p => if p.1 == k then (k, v) else p)
  else m ++ [(k, v)]

/-- mapErase models `delete(values, k)`. -/
def mapErase (m : List (String × Match)) (k : String) : List (String × Match) :=
  m.filter (fun p => p.1 != k)

/-- buildValues models the loop `for _, v := range c.Matches, values[v.Value] = v`. -/
def buildValues : List Match → List (String × Match) → List (String × Match)
  | [], m => m
  | v :: rest, m => buildValues rest (mapInsert m v.Value v)

/-- diffLoop models the loop over `actual` in `Collection.Diff`: encode each
item, remove it from the lookup when present, otherwise append it to the
extra list. -/
def diffLoop (c : Collection) : List GoValue → List (String × Match) → List String →
    Except DiffPanic (List (String × Match) × List String)
  | [], m, ex => .ok (m, ex)
  | item :: rest, m, ex =>
    match c.valueFrom item with
    | .error e => .error e
    | .ok val =>
      if (m.lookup val).isSome then diffLoop c rest (mapErase m val) ex
      else diffLoop c rest m (ex ++ [val])

/-- Diff models `Collection.Diff` over an `actual` that is already a slice
(the non-slice precondition panic is outside the embedding, which types the
argument as a list); the missing collection copies `Type`/`FieldName` from
the receiver and lists whatever survived in the lookup. -/
def Collection.Diff (c : Collection) (actual : List GoValue) : Except DiffPanic Diff :=
  match diffLoop c actual (buildValues c.Matches []) [] with
  | .error e => .error e
  | .ok (m, ex) =>
    .ok { Missing := { type := c.type, FieldName := c.FieldName, Matches := m.map Prod.snd },
          Extra := ex }

/-- ScanErr models the ways the scanner aborts: the two recoverable error
returns of `structValue`, and the panics of the scan path, each as its own
constructor. -/
inductive ScanErr where
  | noIdentifierTag
  | notBasicLit (fieldName : String)
  | panicManyNames
  | panicNoName
  | panicNilTag
  | panicEltOutOfRange
  | panicNotKeyValue
  | panicUnknownExprType
deriving DecidableEq, Repr

/-- FieldDef models one field of the struct type declaration behind a
composite literal: its name list (`f.Names`) and its raw tag literal
(`f.Tag`, `none` when the field has no tag, in which case reading
`f.Tag.Value` is a nil dereference). -/
structure FieldDef where
  names : List String
  tag : Option String
deriving DecidableEq, Repr

/-- Expr models the initializer expressions the scanner inspects. A
composite literal carries the resolved struct type's fields (the source
reaches them through `Type.(*ast.Ident).Obj.Decl.(*ast.TypeSpec)`) and its
element list, where `some v` is a `KeyValueExpr` with value `v` and `none`
any other element shape (whose type assertion panics). -/
inductive Expr where
  | basicLit (val : String)
  | compositeLit (fields : List FieldDef) (elts : List (Option Expr))
  | otherExpr
deriving Repr

/-- listContains decides whether `sub` occurs contiguously in `s`, modelling
`strings.Contains`. -/
def listContains : List Char → List Char → Bool
  | [], sub => sub.isEmpty
  | s :: rest, sub => sub.isPrefixOf (s :: rest) || listContains rest sub

/-- identTagNeedle is the literal `"` ++ "`typedecl:\"identifier\"`" ++ `"`
the scanner searches for inside a field's tag text. -/
def identTagNeedle : String := "`typedecl:\"identifier\"`"

/-- containsIdentTag models `strings.Contains(f.Tag.Value, ...)` on the raw
tag text. -/
def containsIdentTag (tag : String) : Bool :=
  listContains tag.data identTagNeedle.data

/-- structLoop models the field loop of `structValue`, carrying the index
`i` used for `exp.Elts[i]`; falling off the end of the field list leaves
`val == ""`, which the source turns into the missing-tag error. -/
def structLoop (elts : List (Option Expr)) : List FieldDef → Nat →
    Except ScanErr (String × String)
  | [], _ => .error .noIdentifierTag
  | f :: rest, i =>
    match f.tag with
    | none => .error .panicNilTag
    | some tagText =>
      if containsIdentTag tagText then
        if f.names.length > 1 then .error .panicManyNames
        else
          match f.names.head? with
          | none => .error .panicNoName
          | some nm =>
            match elts.get? i with
            | none => .error .panicEltOutOfRange
            | some none => .error .panicNotKeyValue
            | some (some e) =>
              match e with
              | .basicLit v => if v == "" then .error .noIdentifierTag else .ok (nm, v)
              | _ => .error (.notBasicLit nm)
      else structLoop elts rest (i + 1)

/-- structValue models `structValue`: find the first field whose tag
contains the identifier marker and take the literal text of its key-value
element; error out when no tagged field yields a value. -/
def structValue (fields : List FieldDef) (elts : List (Option Expr)) :
    Except ScanErr (String × String) :=
  structLoop elts fields 0

/-- scanVals models the loop over `decl.Values`: a basic literal overwrites
`val`, a composite literal goes through `structValue` (aborting the scan on
error), any other shape panics; the last value wins. -/
def scanVals : List Expr → String → String → Except ScanErr (String × String)
  | [], fn, val => .ok (fn, val)
  | .basicLit s :: rest, fn, _ => scanVals rest fn s
  | .compositeLit fields elts :: rest, _, _ =>
    match structValue fields elts with
    | .error e => .error e
    | .ok (fn, v) => scanVals rest fn v
  | .otherExpr :: _, _, _ => .error .panicUnknownExprType

/-- Def models one entry of `p.TypesInfo.Defs` as the scanner observes it:
the nil test on the object, the lexical-scope ancestry probed by the
issue-38 guard (`t.Parent()`, `t.Parent().Parent()`, and the latter's
position, with `0` standing for `token.NoPos`), whether the resolved type
is a slice, whether the identifier has an `Obj` whose declaration is a
`ValueSpec`, the resolved type string, the identifier name, and the
initializer expressions of the declaration. -/
structure Def where
  tNil : Bool
  parentExists : Bool
  grandparentExists : Bool
  grandparentPos : Nat
  typeIsSlice : Bool
  hasObj : Bool
  isValueSpec : Bool
  typeString : String
  name : String
  values : List Expr
deriving Repr

/-- notTopLevel models the issue-38 guard: the declaration's scope has a
parent whose own parent sits at a real source position. -/
def notTopLevel (d : Def) : Bool :=
  d.parentExists && d.grandparentExists && d.grandparentPos != 0

/-- keep collects every skip test of the scan loop: a definition survives to
the value-inspection step iff all of them pass. -/
def keep (typ : String) (d : Def) : Bool :=
  !d.tNil && !notTopLevel d && !d.typeIsSlice && d.hasObj && d.isValueSpec &&
    hasSuffix d.typeString typ

/-- allLoop models the body of `All`'s range over the definitions map: kept
definitions have their values scanned (aborting on error) and overwrite the
collection's `Type`/`FieldName` while appending a match. -/
def allLoop (typ : String) : List Def → Collection → Except ScanErr Collection
  | [], c => .ok c
  | d :: rest, c =>
    if keep typ d then
      match scanVals d.values "" "" with
      | .error e => .error e
      | .ok (fn, v) =>
        allLoop typ rest
          { type := d.typeString, FieldName := fn,
            Matches := c.Matches ++ [{ Name := d.name, Value := v }] }
    else allLoop typ rest c

/-- charListLe is lexicographic less-or-equal on character lists; since
UTF-8 preserves codepoint order, its strict part is exactly Go's byte-wise
`<` on strings. -/
def charListLe : List Char → List Char → Bool
  | [], _ => true
  | _ :: _, [] => false
  | a :: as, b :: bs => if a = b then charListLe as bs else decide (a < b)

/-- strLe compares two strings as Go's `<`/`<=` on strings does. -/
def strLe (a b : String) : Bool :=
  charListLe a.data b.data

/-- matchLE is the comparator closure of `sort.Slice`'s
`Matches[i].Name < Matches[j].Name`. -/
def matchLE (a b : Match) : Prop :=
  strLe a.Name b.Name = true

instance : DecidableRel matchLE :=
  fun a b => inferInstanceAs (Decidable (strLe a.Name b.Name = true))

/-- sortMatches models the `sort.Slice` call ordering matches by name. -/
def sortMatches (l : List Match) : List Match :=
  List.insertionSort matchLE l

/-- All models `All` on an already-loaded definitions list (the
`packages.Load` front end is outside the embedding): run the scan loop from
the zero collection, then sort the matches by name. -/
def All (defs : List Def) (typ : String) : Except ScanErr Collection :=
  match allLoop typ defs { type := "", FieldName := "", Matches := [] } with
  | .error e => .error e
  | .ok c => .ok { c with Matches := sortMatches c.Matches }

/-- pureLoop is `diffLoop` after the per-item encoding has been factored
out: it consumes the already-encoded value strings. -/
def pureLoop : List (String × Match) → List String → List String →
    List (String × Match) × List String
  | m, [], ex => (m, ex)
  | m, v :: rest, ex =>
    if (m.lookup v).isSome then pureLoop (mapErase m v) rest ex
    else pureLoop m rest (ex ++ [v])

/-- encodeAll encodes every element of the runtime slice through
`valueFrom`, stopping at the first panic, exactly as the diff loop would. -/
def encodeAll (c : Collection) : List GoValue → Except DiffPanic (List String)
  | [] => .ok []
  | item :: rest =>
    match c.valueFrom item with
    | .error e => .error e
    | .ok v =>
      match encodeAll c rest with
      | .error e => .error e
      | .ok vs => .ok (v :: vs)

/-- scanKept is the scan loop of `All` with the collection threading
stripped: the surviving definitions paired with their scanned
(field-name, value) results. -/
def scanKept (typ : String) : List Def → Except ScanErr (List (Def × String × String))
  | [] => .ok []
  | d :: rest =>
    if keep typ d then
      match scanVals d.values "" "" with
      | .error e => .error e
      | .ok fv =>
        match scanKept typ rest with
        | .error e => .error e
        | .ok xs => .ok ((d, fv) :: xs)
    else scanKept typ rest

/-- scanResult is the scanned (field-name, value) pair of one definition,
defaulting to `("", "")` on a scan that does not succeed. -/
def scanResult (d : Def) : String × String :=
  match scanVals d.values "" "" with
  | .ok fv => fv
  | .error _ => ("", "")

/-- scanOk tells whether scanning one definition's values succeeds. -/
def scanOk (d : Def) : Bool :=
  match scanVals d.values "" "" with
  | .ok _ => true
  | .error _ => false

/-- scanFieldName is the field name a kept definition contributes to the
collection. -/
def scanFieldName (d : Def) : String :=
  (scanResult d).1

/-- matchOf is the match a kept definition contributes. -/
def matchOf (p : Def × String × String) : Match :=
  { Name := p.1.name, Value := p.2.2 }

/-- lastTypeOf is the `Type` the collection ends up with after the scan
loop: the type string of the last kept definition, or the default. -/
def lastTypeOf (dflt : String) : List (Def × String × String) → String
  | [] => dflt
  | p :: rest => lastTypeOf p.1.typeString rest

/-- lastFieldOf is the `FieldName` the collection ends up with after the
scan loop. -/
def lastFieldOf (dflt : String) : List (Def × String × String) → String
  | [] => dflt
  | p :: rest => lastFieldOf p.2.1 rest

/-- strConcat concatenates a list of strings in order. -/
def strConcat : List String → String
  | [] => ""
  | s :: rest => s ++ strConcat rest

/-- renderSpec is the rendering the specification describes for
`Diff.String`: the literal `"<Diff{}>"` when both sides are empty, and
otherwise the missing block (header plus one line per missing match)
followed by the extra block (header plus one line per extra value). -/
def renderSpec (d : Diff) : String :=
  if d.Missing.Matches = [] ∧ d.Extra = [] then "<Diff\x7b\x7d>"
  else
    (if d.Missing.Matches = [] then ""
     else "Matches declared but not part of actual:\n" ++
       strConcat (d.Missing.Matches.map (fun v => "\t" ++ v.Name ++ " = " ++ v.Value ++ "\n"))) ++
    (if d.Extra = [] then ""
     else "Extra values provided but not part of Matches:\n" ++
       strConcat (d.Extra.map (fun v => "\t" ++ v ++ "\n")))

/-- stringDataInj recovers string equality from equal character data. -/
theorem stringDataInj : ∀ {a b : String}, a.data = b.data → a = b
  | ⟨_⟩, ⟨_⟩, h => by simp only at h; rw [h]

/-- charListLe is total. -/
theorem charListLe_total : ∀ as bs : List Char, charListLe as bs = true ∨ charListLe bs as = true
  | [], _ => by left; simp [charListLe]
  | _ :: _, [] => by right; simp [charListLe]
  | a :: as, b :: bs => by
    by_cases hab : a = b
    · subst hab
      rcases charListLe_total as bs with h | h
      · left; simpa [charListLe] using h
      · right; simpa [charListLe] using h
    · rcases lt_or_gt_of_ne hab with h | h
      · left; simp [charListLe, hab, h]
      · right; simp [charListLe, Ne.symm hab, h]

/-- charListLe is transitive. -/
theorem charListLe_trans : ∀ as bs cs : List Char,
    charListLe as bs = true → charListLe bs cs = true → charListLe as cs = true
  | [], _, _, _, _ => by simp [charListLe]
  | _ :: _, [], _, h, _ => by simp [charListLe] at h
  | _ :: _, _ :: _, [], _, h => by simp [charListLe] at h
  | a :: as, b :: bs, c :: cs, h1, h2 => by
    by_cases hab : a = b <;> by_cases hbc : b = c
    · subst hab; subst hbc
      simp only [charListLe, if_pos rfl] at h1 h2 ⊢
      exact charListLe_trans as bs cs h1 h2
    · subst hab
      simpa [charListLe, hbc] using h2
    · subst hbc
      simpa [charListLe, hab] using h1
    · have hab' : a < b := by simpa [charListLe, hab] using h1
      have hbc' : b < c := by simpa [charListLe, hbc] using h2
      have hac : a < c := lt_trans hab' hbc'
      simp [charListLe, ne_of_lt hac, hac]

/-- charListLe is antisymmetric. -/
theorem charListLe_antisymm : ∀ as bs : List Char,
    charListLe as bs = true → charListLe bs as = true → as = bs
  | [], [], _, _ => rfl
  | [], _ :: _, _, h => by simp [charListLe] at h
  | _ :: _, [], h, _ => by simp [charListLe] at h
  | a :: as, b :: bs, h1, h2 => by
    by_cases hab : a = b
    · subst hab
      simp only [charListLe, if_pos rfl] at h1 h2
      rw [charListLe_antisymm as bs h1 h2]
    · have h1' : a < b := by simpa [charListLe, hab] using h1
      have h2' : b < a := by simpa [charListLe, Ne.symm hab] using h2
      exact absurd h2' (not_lt_of_gt h1')

instance : IsTotal Match matchLE :=
  ⟨fun a b => charListLe_total a.Name.data b.Name.data⟩

instance : IsTrans Match matchLE :=
  ⟨fun _ _ _ h1 h2 => charListLe_trans _ _ _ h1 h2⟩

/-- matchLE in both directions forces equal names. -/
theorem matchLE_antisymm_name {a b : Match} (h1 : matchLE a b) (h2 : matchLE b a) :
    a.Name = b.Name :=
  stringDataInj (charListLe_antisymm _ _ h1 h2)

/-- lookup succeeds exactly on the stored keys. -/
theorem lookup_isSome_iff_mem : ∀ (m : List (String × Match)) (k : String),
    ((m.lookup k).isSome = true) ↔ k ∈ m.map Prod.fst
  | [], k => by simp [List.lookup]
  | (a, b) :: rest, k => by
    by_cases h : k = a
    · subst h; simp [List.lookup]
    · have hb : (k == a) = false := by simp [h]
      simp [List.lookup, hb, lookup_isSome_iff_mem rest k, h]

/-- mapInsert keeps the key set, only adding its own key when absent. -/
theorem keys_mapInsert (m : List (String × Match)) (k : String) (v : Match) :
    (mapInsert m k v).map Prod.fst =
      if (m.lookup k).isSome then m.map Prod.fst else m.map Prod.fst ++ [k] := by
  unfold mapInsert
  by_cases h : (m.lookup k).isSome
  · simp only [h, if_true, List.map_map]
    refine List.map_congr_left ?_
    intro p _
    by_cases hp : p.1 = k
    · simp [Function.comp, hp]
    · simp [Function.comp, hp]
  · simp [h]

/-- lookup after mapInsert succeeds for the old keys and the new one. -/
theorem lookup_mapInsert_isSome (m : List (String × Match)) (k k' : String) (v : Match) :
    (((mapInsert m k' v).lookup k).isSome = true) ↔
      ((m.lookup k).isSome = true) ∨ k = k' := by
  have hkeys := keys_mapInsert m k' v
  by_cases h : (m.lookup k').isSome = true
  · rw [if_pos h] at hkeys
    rw [lookup_isSome_iff_mem, hkeys, ← lookup_isSome_iff_mem]
    constructor
    · exact Or.inl
    · rintro (hm | rfl)
      · exact hm
      · exact h
  · rw [if_neg h] at hkeys
    rw [lookup_isSome_iff_mem, hkeys]
    simp only [List.mem_append, List.mem_singleton]
    rw [← lookup_isSome_iff_mem]

/-- lookup over buildValues succeeds for the old keys and the match values. -/
theorem lookup_buildValues_isSome : ∀ (l : List Match) (m : List (String × Match)) (k : String),
    (((buildValues l m).lookup k).isSome = true) ↔
      ((m.lookup k).isSome = true) ∨ k ∈ l.map Match.Value
  | [], m, k => by simp [buildValues]
  | v :: rest, m, k => by
    rw [buildValues, lookup_buildValues_isSome rest _ k, lookup_mapInsert_isSome]
    simp only [List.map_cons, List.mem_cons]
    tauto

/-- mapErase drops its key. -/
theorem lookup_mapErase_self : ∀ (m : List (String × Match)) (k : String),
    (mapErase m k).lookup k = none
  | [], _ => rfl
  | (a, b) :: rest, k => by
    by_cases h : a = k
    · simpa [mapErase, h] using lookup_mapErase_self rest k
    · have hb : (k == a) = false := by simp [Ne.symm h]
      simpa [mapErase, h, List.lookup, hb] using lookup_mapErase_self rest k

/-- mapErase leaves other keys alone. -/
theorem lookup_mapErase_ne : ∀ (m : List (String × Match)) {k k' : String}, k ≠ k' →
    (mapErase m k').lookup k = m.lookup k
  | [], _, _, _ => rfl
  | (a, b) :: rest, k, k', h => by
    by_cases ha : a = k'
    · subst ha
      have hb : (k == a) = false := by simp [h]
      simpa [mapErase, List.lookup, hb] using lookup_mapErase_ne rest h
    · by_cases hk : k = a
      · simp [mapErase, ha, List.lookup, hk]
      · have hb : (k == a) = false := by simp [hk]
        simpa [mapErase, ha, List.lookup, hb] using lookup_mapErase_ne rest h

/-- mapErase filters the key list. -/
theorem keys_mapErase (m : List (String × Match)) (k : String) :
    (mapErase m k).map Prod.fst = (m.map Prod.fst).filter (fun x => x != k) := by
  induction m with
  | nil => rfl
  | cons p rest ih =>
    obtain ⟨a, b⟩ := p
    simp only [mapErase, List.filter_cons] at ih ⊢
    by_cases h : (a != k) = true <;> simp [h, ih]

/-- buildValues with pairwise-distinct values (and keys disjoint from them)
just appends one entry per match. -/
theorem buildValues_nodup : ∀ (l : List Match) (m : List (String × Match)),
    (m.map Prod.fst ++ l.map Match.Value).Nodup →
    buildValues l m = m ++ l.map (fun v => (v.Value, v))
  | [], m, _ => by simp [buildValues]
  | v :: rest, m, h => by
    have hnotin : v.Value ∉ m.map Prod.fst := by
      intro hmem
      exact (List.nodup_append.1 h).2.2 hmem (by simp)
    have hlook : (m.lookup v.Value).isSome = false := by
      by_contra hc
      exact hnotin ((lookup_isSome_iff_mem m v.Value).1 (by simpa using hc))
    have hins : mapInsert m v.Value v = m ++ [(v.Value, v)] := by
      unfold mapInsert
      rw [hlook]
      simp
    rw [buildValues, hins,
      buildValues_nodup rest (m ++ [(v.Value, v)]) (by simpa using h)]
    simp

/-- pureLoop only ever appends to the extra accumulator. -/
theorem pureLoop_acc : ∀ (vs : List String) (m : List (String × Match)) (ex : List String),
    pureLoop m vs ex = ((pureLoop m vs []).1, ex ++ (pureLoop m vs []).2)
  | [], m, ex => by simp [pureLoop]
  | v :: rest, m, ex => by
    by_cases h : (m.lookup v).isSome = true
    · simp only [pureLoop, h, if_true]
      exact pureLoop_acc rest (mapErase m v) ex
    · have h' : (m.lookup v).isSome = false := Bool.eq_false_iff.mpr h
      simp only [pureLoop, h', Bool.false_eq_true, if_false]
      rw [pureLoop_acc rest m (ex ++ [v]), pureLoop_acc rest m ([] ++ [v])]
      simp

/-- extra values preserve the order of the encoded input. -/
theorem pureLoop_extra_sublist : ∀ (vs : List String) (m : List (String × Match)),
    ((pureLoop m vs []).2).Sublist vs
  | [], _ => by simp [pureLoop]
  | v :: rest, m => by
    by_cases h : (m.lookup v).isSome = true
    · simp only [pureLoop, h, if_true]
      exact (pureLoop_extra_sublist rest (mapErase m v)).cons v
    · have h' : (m.lookup v).isSome = false := Bool.eq_false_iff.mpr h
      simp only [pureLoop, h', Bool.false_eq_true, if_false]
      rw [pureLoop_acc rest m ([] ++ [v])]
      simpa using (pureLoop_extra_sublist rest m).cons₂ v

/-- occurrence accounting of the extra list: one occurrence is absorbed when
the value is a key of the lookup, every other occurrence is appended. -/
theorem pureLoop_extra_count : ∀ (vs : List String) (m : List (String × Match)) (v : String),
    ((pureLoop m vs []).2).count v =
      vs.count v - (if (m.lookup v).isSome = true then min (vs.count v) 1 else 0)
  | [], m, v => by simp [pureLoop]
  | w :: rest, m, v => by
    by_cases hw : (m.lookup w).isSome = true
    · simp only [pureLoop, hw, if_true]
      rw [pureLoop_extra_count rest (mapErase m w) v]
      by_cases hv : v = w
      · subst hv
        rw [lookup_mapErase_self]
        simp [hw, List.count_cons_self, Nat.min_def]
      · rw [lookup_mapErase_ne m hv]
        rw [List.count_cons_of_ne hv]
    · have hw' : (m.lookup w).isSome = false := Bool.eq_false_iff.mpr hw
      simp only [pureLoop, hw', Bool.false_eq_true, if_false]
      rw [pureLoop_acc rest m ([] ++ [w])]
      by_cases hv : v = w
      · subst hv
        simp only [List.count_cons_self, List.count_append]
        rw [pureLoop_extra_count rest m v]
        simp [hw, Nat.add_comm]
      · simp only [List.count_append]
        rw [pureLoop_extra_count rest m v, List.count_cons_of_ne hv]
        simp [hv]

/-- diffLoop is encodeAll followed by the pure bookkeeping loop. -/
theorem diffLoop_eq_pure (c : Collection) :
    ∀ (items : List GoValue) (m : List (String × Match)) (ex : List String),
    diffLoop c items m ex =
      match encodeAll c items with
      | .error e => .error e
      | .ok vs => .ok (pureLoop m vs ex)
  | [], m, ex => by simp [diffLoop, encodeAll, pureLoop]
  | item :: rest, m, ex => by
    rw [diffLoop, encodeAll]
    cases hv : c.valueFrom item with
    | error e => simp
    | ok v =>
      simp only
      by_cases h : (m.lookup v).isSome = true
      · rw [if_pos h, diffLoop_eq_pure c rest (mapErase m v) ex]
        cases he : encodeAll c rest with
        | error e => simp
        | ok vs => simp [pureLoop, h]
      · have h' : (m.lookup v).isSome = false := Bool.eq_false_iff.mpr h
        rw [if_neg h, diffLoop_eq_pure c rest m (ex ++ [v])]
        cases he : encodeAll c rest with
        | error e => simp
        | ok vs => simp [pureLoop, h']

/-- Diff in terms of the encoded values and the pure loop. -/
theorem Diff_eq_pure (c : Collection) (actual : List GoValue) :
    c.Diff actual =
      match encodeAll c actual with
      | .error e => .error e
      | .ok vs =>
        .ok { Missing := { type := c.type, FieldName := c.FieldName,
                           Matches := (pureLoop (buildValues c.Matches []) vs []).1.map Prod.snd },
              Extra := (pureLoop (buildValues c.Matches []) vs []).2 } := by
  rw [Collection.Diff, diffLoop_eq_pure c actual]
  cases he : encodeAll c actual with
  | error e => simp
  | ok vs => simp

/-- pureLoop on a permutation of the key set empties the lookup and adds no
extra values, provided the keys are pairwise distinct. -/
theorem pureLoop_perm_keys : ∀ (vs : List String) (m : List (String × Match)) (ex : List String),
    (m.map Prod.fst).Nodup → vs.Perm (m.map Prod.fst) →
    pureLoop m vs ex = ([], ex)
  | [], m, ex, _, hperm => by
    have : m.map Prod.fst = [] := (List.Perm.nil_eq hperm).symm
    have hm : m = [] := by
      cases m with
      | nil => rfl
      | cons p rest => simp at this
    subst hm
    simp [pureLoop]
  | v :: rest, m, ex, hnd, hperm => by
    have hvmem : v ∈ m.map Prod.fst := hperm.mem_iff.1 (by simp)
    have hlook : (m.lookup v).isSome = true := (lookup_isSome_iff_mem m v).2 hvmem
    rw [pureLoop, if_pos hlook]
    have hkeys : (mapErase m v).map Prod.fst = (m.map Prod.fst).erase v := by
      rw [keys_mapErase, List.Nodup.erase_eq_filter hnd]
    have hnd' : ((mapErase m v).map Prod.fst).Nodup := by
      rw [hkeys]; exact hnd.erase v
    have hperm' : rest.Perm ((mapErase m v).map Prod.fst) := by
      rw [hkeys]
      exact (List.perm_cons v).1
        (hperm.trans (List.perm_cons_erase hvmem))
    exact pureLoop_perm_keys rest (mapErase m v) ex hnd' hperm'

/-- scanOk means scanVals returns exactly the scanResult pair. -/
theorem scanOk_ok {d : Def} (h : scanOk d = true) :
    scanVals d.values "" "" = .ok (scanResult d) := by
  unfold scanOk at h
  unfold scanResult
  cases hs : scanVals d.values "" "" with
  | error e => rw [hs] at h; exact absurd h (by simp)
  | ok fv => simp

/-- a successful scan loop scans every kept definition successfully. -/
theorem scanKept_allOk {typ : String} : ∀ {defs : List Def} {xs : List (Def × String × String)},
    scanKept typ defs = .ok xs → ∀ d ∈ defs, keep typ d = true → scanOk d = true := by
  intro defs
  induction defs with
  | nil => intro xs _ d hd; simp at hd
  | cons d0 rest ih =>
    intro xs h d hd hk
    by_cases hk0 : keep typ d0 = true
    · rw [scanKept, if_pos hk0] at h
      cases hs : scanVals d0.values "" "" with
      | error e => rw [hs] at h; simp at h
      | ok fv =>
        rw [hs] at h
        cases hr : scanKept typ rest with
        | error e => rw [hr] at h; simp at h
        | ok xs' =>
          rcases List.mem_cons.1 hd with rfl | hd'
          · unfold scanOk; rw [hs]
          · exact ih hr d hd' hk
    · rw [scanKept, if_neg hk0] at h
      rcases List.mem_cons.1 hd with rfl | hd'
      · exact absurd hk hk0
      · exact ih h d hd' hk

/-- when every kept definition scans, the scan loop returns the kept
definitions with their scan results, in order. -/
theorem scanKept_ok_of {typ : String} : ∀ {defs : List Def},
    (∀ d ∈ defs, keep typ d = true → scanOk d = true) →
    scanKept typ defs = .ok ((defs.filter (keep typ)).map (fun d => (d, scanResult d))) := by
  intro defs
  induction defs with
  | nil => intro _; rfl
  | cons d0 rest ih =>
    intro h
    by_cases hk0 : keep typ d0 = true
    · have hok := h d0 (by simp) hk0
      rw [scanKept, if_pos hk0, scanOk_ok hok,
        ih (fun d hd hk => h d (List.mem_cons_of_mem d0 hd) hk)]
      simp [List.filter_cons, hk0]
    · rw [scanKept, if_neg hk0, ih (fun d hd hk => h d (List.mem_cons_of_mem d0 hd) hk)]
      simp [List.filter_cons, hk0]

/-- the scan loop of All, written with the final collection made explicit. -/
theorem allLoop_char {typ : String} : ∀ (defs : List Def) (c0 : Collection),
    allLoop typ defs c0 =
      match scanKept typ defs with
      | .error e => .error e
      | .ok xs =>
        .ok { type := lastTypeOf c0.type xs, FieldName := lastFieldOf c0.FieldName xs,
              Matches := c0.Matches ++ xs.map matchOf }
  | [], c0 => by simp [allLoop, scanKept, lastTypeOf, lastFieldOf]
  | d :: rest, c0 => by
    by_cases hk : keep typ d = true
    · rw [allLoop, if_pos hk, scanKept, if_pos hk]
      cases hs : scanVals d.values "" "" with
      | error e => simp
      | ok fv =>
        simp only
        rw [allLoop_char rest]
        cases hr : scanKept typ rest with
        | error e => simp
        | ok xs => simp [lastTypeOf, lastFieldOf, matchOf]
    · rw [allLoop, if_neg hk, scanKept, if_neg hk]
      exact allLoop_char rest c0

/-- All, written with the final collection made explicit. -/
theorem All_char (defs : List Def) (typ : String) :
    All defs typ =
      match scanKept typ defs with
      | .error e => .error e
      | .ok xs =>
        .ok { type := lastTypeOf "" xs, FieldName := lastFieldOf "" xs,
              Matches := sortMatches (xs.map matchOf) } := by
  rw [All, allLoop_char]
  cases hr : scanKept typ defs with
  | error e => simp
  | ok xs => simp

/-- sortMatches sorts with respect to the comparator. -/
theorem sortMatches_sorted (l : List Match) : (sortMatches l).Sorted matchLE :=
  List.sorted_insertionSort matchLE l

/-- sortMatches permutes its input. -/
theorem sortMatches_perm (l : List Match) : (sortMatches l).Perm l :=
  List.perm_insertionSort matchLE l

/-- two sorted permutations with pairwise-distinct names are equal. -/
theorem sorted_eq_of_perm {l1 l2 : List Match} (hp : l1.Perm l2)
    (hs1 : l1.Sorted matchLE) (hs2 : l2.Sorted matchLE)
    (hn1 : (l1.map Match.Name).Nodup) : l1 = l2 := by
  have hn2 : (l2.map Match.Name).Nodup := ((hp.map Match.Name).nodup_iff).1 hn1
  have hpw1 : l1.Pairwise (fun a b => a.Name ≠ b.Name) := by
    rw [List.Nodup, List.pairwise_map] at hn1
    exact hn1
  have hpw2 : l2.Pairwise (fun a b => a.Name ≠ b.Name) := by
    rw [List.Nodup, List.pairwise_map] at hn2
    exact hn2
  haveI : IsAntisymm Match (fun a b => matchLE a b ∧ a.Name ≠ b.Name) :=
    ⟨fun a b h1 h2 => absurd (matchLE_antisymm_name h1.1 h2.1) h1.2⟩
  exact List.eq_of_perm_of_sorted hp (hs1.and hpw1) (hs2.and hpw2)

/-- every match of a successful All names a surviving definition. -/
theorem All_mem_matches {defs : List Def} {typ : String} {c : Collection}
    (h : All defs typ = .ok c) :
    ∀ m ∈ c.Matches, ∃ d ∈ defs, keep typ d = true ∧ m.Name = d.name := by
  intro m hm
  rw [All_char] at h
  cases hr : scanKept typ defs with
  | error e => rw [hr] at h; simp at h
  | ok xs =>
    rw [hr] at h
    simp only [Except.ok.injEq] at h
    have hmm : m ∈ sortMatches (xs.map matchOf) := by
      rw [← h] at hm; exact hm
    have hmm' : m ∈ xs.map matchOf := (sortMatches_perm _).mem_iff.1 hmm
    obtain ⟨p, hpmem, rfl⟩ := List.mem_map.1 hmm'
    have hall := scanKept_allOk hr
    have hxs := @scanKept_ok_of typ defs hall
    rw [hr] at hxs
    simp only [Except.ok.injEq] at hxs
    rw [hxs] at hpmem
    obtain ⟨d, hdmem, rfl⟩ := List.mem_map.1 hpmem
    have hdf := List.mem_filter.1 hdmem
    exact ⟨d, hdf.1, hdf.2, rfl⟩

/-- folding string appends over a list is appending the concatenated lines. -/
theorem foldl_append_str {α : Type} : ∀ (l : List α) (f : α → String) (init : String),
    l.foldl (fun acc v => acc ++ f v) init = init ++ strConcat (l.map f)
  | [], f, init => by simp [strConcat, String.append_empty]
  | v :: rest, f, init => by
    rw [List.foldl_cons, foldl_append_str rest f (init ++ f v)]
    simp [strConcat, String.append_assoc]

/-- any string led by the missing-block header is nonempty. -/
theorem missingHeader_pos (s : String) :
    0 < ("Matches declared but not part of actual:\n" ++ s).length := by
  rw [String.length_append]
  have h : ("Matches declared but not part of actual:\n").length = 41 := rfl
  omega

/-- any string led by the extra-block header is nonempty. -/
theorem extraHeader_pos (s : String) :
    0 < ("Extra values provided but not part of Matches:\n" ++ s).length := by
  rw [String.length_append]
  have h : ("Extra values provided but not part of Matches:\n").length = 47 := rfl
  omega

/-- the two message accumulations of diffString, made explicit. -/
theorem diffString_eq (d : Diff) :
    diffString d =
      (if d.Missing.Matches = [] ∧ d.Extra = [] then "<Diff\x7b\x7d>"
       else
         (if d.Missing.Matches = [] then ""
          else "Matches declared but not part of actual:\n" ++
            strConcat (d.Missing.Matches.map
              (fun v => "\t" ++ v.Name ++ " = " ++ v.Value ++ "\n"))) ++
         (if d.Extra = [] then ""
          else "Extra values provided but not part of Matches:\n" ++
            strConcat (d.Extra.map (fun v => "\t" ++ v ++ "\n")))) := by
  by_cases hm : d.Missing.Matches = [] <;> by_cases he : d.Extra = []
  · simp [diffString, hm, he]
  · have hel : 0 < d.Extra.length := List.length_pos.2 he
    simp [diffString, hm, he, hel, foldl_append_str, extraHeader_pos]
    intro h
    exact absurd h (by decide)
  · have hml : 0 < d.Missing.Matches.length := List.length_pos.2 hm
    simp [diffString, hm, he, hml, foldl_append_str, missingHeader_pos,
      String.append_empty]
    intro h
    exact absurd h (by decide)
  · have hel : 0 < d.Extra.length := List.length_pos.2 he
    have hml : 0 < d.Missing.Matches.length := List.length_pos.2 hm
    simp [diffString, hm, he, hml, hel, foldl_append_str, missingHeader_pos,
      String.append_assoc]
    intro h
    exact absurd h (by decide)

/-- C2 counterexample: `Collection{}.Diff([v])` does not return an extra
entry for every value `v`: for a struct-kinded `v` the diff engine panics
with "Diff: collection is empty", so Diff has a failure mode beyond the
non-slice precondition check. -/
theorem diff_empty_collection_struct_panics :
    (Collection.mk "" "" []).Diff
      [GoValue.structVal { typeName := "pkg.T", fields := [], repr := "x" }] =
      .error .collectionEmpty := rfl

/-- C2 (amended): for every value of non-struct kind, diffing it against the
empty collection yields exactly that value's canonical encoding as the one
extra entry, with empty missing matches, and no panic; struct-kinded values
instead hit the empty-collection panic. -/
theorem diff_empty_collection_basic (r : String) :
    (Collection.mk "" "" []).Diff [GoValue.basic r] =
      .ok { Missing := { type := "", FieldName := "", Matches := [] }, Extra := [r] } := by
  simp [Collection.Diff, diffLoop, Collection.valueFrom, buildValues, pureLoop, List.lookup]

/-- C5: every Diff returned by Collection.Diff carries the receiver's Type
and FieldName on its missing collection, also when the missing match list
is empty. -/
theorem diff_missing_copies_type_fieldName (c : Collection) (actual : List GoValue) (d : Diff)
    (h : c.Diff actual = .ok d) :
    d.Missing.type = c.type ∧ d.Missing.FieldName = c.FieldName := by
  rw [Collection.Diff] at h
  cases hl : diffLoop c actual (buildValues c.Matches []) [] with
  | error e => rw [hl] at h; simp at h
  | ok p =>
    obtain ⟨m, ex⟩ := p
    rw [hl] at h
    simp only [Except.ok.injEq] at h
    rw [← h]
    exact ⟨rfl, rfl⟩

/-- C5 witness: the copy-through observed on a concrete empty diff. -/
theorem diff_missing_copies_type_fieldName_witness :
    (Collection.mk "t.T" "F" []).Diff [] =
      .ok { Missing := { type := "t.T", FieldName := "F", Matches := [] }, Extra := [] } ∧
    (({ Missing := { type := "t.T", FieldName := "F", Matches := [] },
        Extra := [] } : Diff).Missing.type = "t.T" ∧
      ({ Missing := { type := "t.T", FieldName := "F", Matches := [] },
         Extra := [] } : Diff).Missing.FieldName = "F") :=
  ⟨rfl, diff_missing_copies_type_fieldName (Collection.mk "t.T" "F" []) [] _ rfl⟩

/-- C4: the extra list of a returned Diff preserves the runtime order (it
is a sublist of the encoded sequence), a declared canonical value absorbs
exactly its first occurrence, and every occurrence of an undeclared value
is appended: occurrences are accounted independently. -/
theorem diff_extra_accounting (c : Collection) (actual : List GoValue) (vs : List String)
    (d : Diff) (henc : encodeAll c actual = .ok vs) (hd : c.Diff actual = .ok d) :
    d.Extra.Sublist vs ∧
      (∀ v ∈ c.Matches.map Match.Value, d.Extra.count v = vs.count v - min (vs.count v) 1) ∧
      (∀ v : String, v ∉ c.Matches.map Match.Value → d.Extra.count v = vs.count v) := by
  rw [Diff_eq_pure c actual, henc] at hd
  simp only [Except.ok.injEq] at hd
  rw [← hd]
  refine ⟨pureLoop_extra_sublist vs _, ?_, ?_⟩
  · intro v hv
    rw [pureLoop_extra_count vs _ v, if_pos]
    exact (lookup_buildValues_isSome c.Matches [] v).2 (Or.inr hv)
  · intro v hv
    rw [pureLoop_extra_count vs _ v, if_neg, Nat.sub_zero]
    intro hc
    rcases (lookup_buildValues_isSome c.Matches [] v).1 hc with h0 | hmem
    · simp [List.lookup] at h0
    · exact hv hmem

/-- C4 witness: a declared value seen twice puts its second occurrence in
extra, an undeclared value goes straight to extra, order preserved. -/
theorem diff_extra_accounting_witness :
    encodeAll (Collection.mk "p.F" "" [Match.mk "A" "va"])
        [GoValue.basic "va", GoValue.basic "va", GoValue.basic "vb"] =
      .ok ["va", "va", "vb"] ∧
    (Collection.mk "p.F" "" [Match.mk "A" "va"]).Diff
        [GoValue.basic "va", GoValue.basic "va", GoValue.basic "vb"] =
      .ok { Missing := { type := "p.F", FieldName := "", Matches := [] },
            Extra := ["va", "vb"] } ∧
    (({ Missing := { type := "p.F", FieldName := "", Matches := [] },
        Extra := ["va", "vb"] } : Diff).Extra.Sublist ["va", "va", "vb"] ∧
      (∀ v ∈ (Collection.mk "p.F" "" [Match.mk "A" "va"]).Matches.map Match.Value,
        (({ Missing := { type := "p.F", FieldName := "", Matches := [] },
            Extra := ["va", "vb"] } : Diff).Extra.count v) =
          (["va", "va", "vb"].count v) - min (["va", "va", "vb"].count v) 1) ∧
      (∀ v : String, v ∉ (Collection.mk "p.F" "" [Match.mk "A" "va"]).Matches.map Match.Value →
        (({ Missing := { type := "p.F", FieldName := "", Matches := [] },
            Extra := ["va", "vb"] } : Diff).Extra.count v) = ["va", "va", "vb"].count v)) :=
  ⟨rfl, rfl,
    diff_extra_accounting (Collection.mk "p.F" "" [Match.mk "A" "va"])
      [GoValue.basic "va", GoValue.basic "va", GoValue.basic "vb"]
      ["va", "va", "vb"]
      { Missing := { type := "p.F", FieldName := "", Matches := [] },
        Extra := ["va", "vb"] } rfl rfl⟩

/-- C3 counterexample: a Collection scanned from two declarations sharing
one canonical value diffs non-zero against the runtime sequence of exactly
those two declared values: the second occurrence lands in extra, because
the lookup keeps a single entry per canonical value. -/
theorem diff_roundtrip_duplicate_cex :
    All [Def.mk false true true 0 false true true "p.Flag" "A" [.basicLit "va"],
         Def.mk false true true 0 false true true "p.Flag" "B" [.basicLit "va"]]
        "p.Flag" =
      .ok { type := "p.Flag", FieldName := "",
            Matches := [Match.mk "A" "va", Match.mk "B" "va"] } ∧
    ({ type := "p.Flag", FieldName := "",
       Matches := [Match.mk "A" "va", Match.mk "B" "va"] } : Collection).Diff
        [GoValue.basic "va", GoValue.basic "va"] =
      .ok { Missing := { type := "p.Flag", FieldName := "", Matches := [] },
            Extra := ["va"] } ∧
    ({ Missing := { type := "p.Flag", FieldName := "", Matches := [] },
       Extra := ["va"] } : Diff).Zero = false :=
  ⟨rfl, rfl, rfl⟩

/-- C3 (amended): diffing a Collection against runtime values that encode
to a permutation of its declared canonical values yields a zero Diff,
provided the declared canonical values are pairwise distinct (our
counterexample shows the round trip breaks when two declarations share a
value). -/
theorem diff_roundtrip_zero (c : Collection) (actual : List GoValue) (vs : List String)
    (henc : encodeAll c actual = .ok vs)
    (hperm : vs.Perm (c.Matches.map Match.Value))
    (hnd : (c.Matches.map Match.Value).Nodup) :
    ∃ d, c.Diff actual = .ok d ∧ d.Zero = true := by
  have hbv : buildValues c.Matches [] = c.Matches.map (fun v => (v.Value, v)) :=
    buildValues_nodup c.Matches [] (by simpa using hnd)
  have hkeys : (buildValues c.Matches []).map Prod.fst = c.Matches.map Match.Value := by
    rw [hbv, List.map_map]
    rfl
  have hloop := pureLoop_perm_keys vs (buildValues c.Matches []) []
    (by rw [hkeys]; exact hnd) (by rw [hkeys]; exact hperm)
  refine ⟨{ Missing := { type := c.type, FieldName := c.FieldName, Matches := [] },
            Extra := [] }, ?_, by simp [Diff.Zero]⟩
  rw [Diff_eq_pure, henc]
  simp only [hloop]
  rfl

/-- C3 witness: the round trip on a two-member collection with distinct
values, runtime sequence given in swapped order. -/
theorem diff_roundtrip_zero_witness :
    encodeAll (Collection.mk "p.Flag" "" [Match.mk "A" "va", Match.mk "B" "vb"])
        [GoValue.basic "vb", GoValue.basic "va"] = .ok ["vb", "va"] ∧
    (["vb", "va"].Perm
      ((Collection.mk "p.Flag" "" [Match.mk "A" "va", Match.mk "B" "vb"]).Matches.map
        Match.Value)) ∧
    (((Collection.mk "p.Flag" "" [Match.mk "A" "va", Match.mk "B" "vb"]).Matches.map
        Match.Value).Nodup) ∧
    (∃ d, (Collection.mk "p.Flag" "" [Match.mk "A" "va", Match.mk "B" "vb"]).Diff
        [GoValue.basic "vb", GoValue.basic "va"] = .ok d ∧ d.Zero = true) :=
  ⟨rfl, by decide, by decide,
    diff_roundtrip_zero (Collection.mk "p.Flag" "" [Match.mk "A" "va", Match.mk "B" "vb"])
      [GoValue.basic "vb", GoValue.basic "va"] ["vb", "va"] rfl (by decide) (by decide)⟩

/-- C9: Diff.String returns exactly `"<Diff{}>"` when both the missing
matches and the extra list are empty, and otherwise the missing block
(header line plus one tab-indented `name = value` line per missing match)
followed by the extra block (header line plus one tab-indented value line
per extra value). -/
theorem diffString_spec (d : Diff) : d.String = renderSpec d := by
  rw [Diff.String, diffString_eq, renderSpec]

/-- C10: Diff.Zero is true exactly when Diff.String renders the empty-diff
literal `"<Diff{}>"`. -/
theorem zero_iff_empty_rendering (d : Diff) :
    d.Zero = true ↔ d.String = "<Diff\x7b\x7d>" := by
  rw [Diff.String, diffString_eq]
  constructor
  · intro hz
    rw [Diff.Zero] at hz
    simp only [Bool.and_eq_true, beq_iff_eq, List.length_eq_zero] at hz
    rw [if_pos hz]
  · intro hs
    by_cases hm : d.Missing.Matches = [] <;> by_cases he : d.Extra = []
    · simp [Diff.Zero, hm, he]
    · rw [if_neg (fun hc => he hc.2), if_pos hm, String.empty_append] at hs
      rw [if_neg he] at hs
      have hl := congrArg String.length hs
      rw [String.length_append] at hl
      have h47 : ("Extra values provided but not part of Matches:\n").length = 47 := rfl
      have h8 : ("<Diff\x7b\x7d>").length = 8 := rfl
      omega
    · rw [if_neg (fun hc => hm hc.1), if_neg hm, if_pos he, String.append_empty] at hs
      have hl := congrArg String.length hs
      rw [String.length_append] at hl
      have h41 : ("Matches declared but not part of actual:\n").length = 41 := rfl
      have h8 : ("<Diff\x7b\x7d>").length = 8 := rfl
      omega
    · rw [if_neg (fun hc => hm hc.1), if_neg hm, if_neg he] at hs
      have hl := congrArg String.length hs
      rw [String.length_append, String.length_append, String.length_append] at hl
      have h41 : ("Matches declared but not part of actual:\n").length = 41 := rfl
      have h8 : ("<Diff\x7b\x7d>").length = 8 := rfl
      omega

/-- surviving definitions pass the issue-38 top-level guard. -/
theorem keep_not_local {typ : String} {d : Def} (h : keep typ d = true) :
    notTopLevel d = false := by
  rw [keep] at h
  simp only [Bool.and_eq_true, Bool.not_eq_true'] at h
  exact h.1.1.1.1.2

/-- surviving definitions are not slice-typed. -/
theorem keep_not_slice {typ : String} {d : Def} (h : keep typ d = true) :
    d.typeIsSlice = false := by
  rw [keep] at h
  simp only [Bool.and_eq_true, Bool.not_eq_true'] at h
  exact h.1.1.1.2

/-- the collection's final Type and FieldName both come from the last
scanned entry, or are the defaults when nothing was kept. -/
theorem last_spec : ∀ (xs : List (Def × String × String)) (dflt1 dflt2 : String),
    (xs = [] ∧ lastTypeOf dflt1 xs = dflt1 ∧ lastFieldOf dflt2 xs = dflt2) ∨
    (∃ p ∈ xs, lastTypeOf dflt1 xs = p.1.typeString ∧ lastFieldOf dflt2 xs = p.2.1)
  | [], dflt1, dflt2 => Or.inl ⟨rfl, rfl, rfl⟩
  | p :: rest, dflt1, dflt2 => by
    rcases last_spec rest p.1.typeString p.2.1 with ⟨hnil, h1, h2⟩ | ⟨q, hq, h1, h2⟩
    · refine Or.inr ⟨p, by simp, ?_, ?_⟩
      · rw [lastTypeOf, h1]
      · rw [lastFieldOf, h2]
    · refine Or.inr ⟨q, by simp [hq], ?_, ?_⟩
      · rw [lastTypeOf, h1]
      · rw [lastFieldOf, h2]

/-- C7: a declaration whose lexical scope chain shows a function-local
scope (the issue-38 guard fires) never contributes a match to a successful
All, also when other, module-level declarations do. -/
theorem All_excludes_local_decls (defs : List Def) (typ : String) (c : Collection) (d0 : Def)
    (h : All defs typ = .ok c) (hd : d0 ∈ defs)
    (hlocal : notTopLevel d0 = true)
    (huniq : ∀ d' ∈ defs, d'.name = d0.name → d' = d0) :
    ∀ m ∈ c.Matches, m.Name ≠ d0.name := by
  intro m hm heq
  obtain ⟨d, hdmem, hkeep, hname⟩ := All_mem_matches h m hm
  have hdd : d = d0 := huniq d hdmem (by rw [← hname, heq])
  subst hdd
  rw [keep_not_local hkeep] at hlocal
  exact absurd hlocal (by simp)

/-- C7 witness: a function-local declaration of the target type is absent
from the scan while the module-level one of the same type is present. -/
theorem All_excludes_local_decls_witness :
    All [Def.mk false true true 7 false true true "p.Flag" "localFlag" [.basicLit "vl"],
         Def.mk false true true 0 false true true "p.Flag" "TopFlag" [.basicLit "vt"]]
        "p.Flag" =
      .ok { type := "p.Flag", FieldName := "",
            Matches := [Match.mk "TopFlag" "vt"] } ∧
    (∀ m ∈ ({ type := "p.Flag", FieldName := "",
              Matches := [Match.mk "TopFlag" "vt"] } : Collection).Matches,
      m.Name ≠ "localFlag") := by
  refine ⟨rfl, ?_⟩
  exact All_excludes_local_decls
    [Def.mk false true true 7 false true true "p.Flag" "localFlag" [.basicLit "vl"],
     Def.mk false true true 0 false true true "p.Flag" "TopFlag" [.basicLit "vt"]]
    "p.Flag"
    { type := "p.Flag", FieldName := "", Matches := [Match.mk "TopFlag" "vt"] }
    (Def.mk false true true 7 false true true "p.Flag" "localFlag" [.basicLit "vl"])
    rfl (by simp) rfl
    (by
      intro d' hd' hn
      rcases List.mem_cons.1 hd' with rfl | hd''
      · rfl
      · rcases List.mem_cons.1 hd'' with rfl | hd'''
        · exact absurd hn (by decide)
        · simp at hd''')

/-- C8: a module-level declaration whose resolved type is a slice of the
target type never contributes a match to a successful All. -/
theorem All_excludes_slice_decls (defs : List Def) (typ : String) (c : Collection) (d0 : Def)
    (h : All defs typ = .ok c) (hd : d0 ∈ defs)
    (hslice : d0.typeIsSlice = true)
    (huniq : ∀ d' ∈ defs, d'.name = d0.name → d' = d0) :
    ∀ m ∈ c.Matches, m.Name ≠ d0.name := by
  intro m hm heq
  obtain ⟨d, hdmem, hkeep, hname⟩ := All_mem_matches h m hm
  have hdd : d = d0 := huniq d hdmem (by rw [← hname, heq])
  subst hdd
  rw [keep_not_slice hkeep] at hslice
  exact absurd hslice (by simp)

/-- C8 witness: a slice-typed aggregator variable is absent from the scan
while the plain declaration is present. -/
theorem All_excludes_slice_decls_witness :
    All [Def.mk false true true 0 true true true "[]p.Flag" "AllFlags" [.basicLit "vs"],
         Def.mk false true true 0 false true true "p.Flag" "TopFlag" [.basicLit "vt"]]
        "p.Flag" =
      .ok { type := "p.Flag", FieldName := "",
            Matches := [Match.mk "TopFlag" "vt"] } ∧
    (∀ m ∈ ({ type := "p.Flag", FieldName := "",
              Matches := [Match.mk "TopFlag" "vt"] } : Collection).Matches,
      m.Name ≠ "AllFlags") := by
  refine ⟨rfl, ?_⟩
  exact All_excludes_slice_decls
    [Def.mk false true true 0 true true true "[]p.Flag" "AllFlags" [.basicLit "vs"],
     Def.mk false true true 0 false true true "p.Flag" "TopFlag" [.basicLit "vt"]]
    "p.Flag"
    { type := "p.Flag", FieldName := "", Matches := [Match.mk "TopFlag" "vt"] }
    (Def.mk false true true 0 true true true "[]p.Flag" "AllFlags" [.basicLit "vs"])
    rfl (by simp) rfl
    (by
      intro d' hd' hn
      rcases List.mem_cons.1 hd' with rfl | hd''
      · rfl
      · rcases List.mem_cons.1 hd'' with rfl | hd'''
        · exact absurd hn (by decide)
        · simp at hd''')

/-- fields whose tags lack the identifier marker are skipped, advancing the
element index. -/
theorem structLoop_skip (elts : List (Option Expr)) :
    ∀ (pre rest : List FieldDef) (i : Nat),
    (∀ g ∈ pre, ∃ t, g.tag = some t ∧ containsIdentTag t = false) →
    structLoop elts (pre ++ rest) i = structLoop elts rest (i + pre.length)
  | [], rest, i, _ => by simp
  | f :: pre', rest, i, h => by
    obtain ⟨t, ht, hct⟩ := h f (by simp)
    rw [List.cons_append]
    simp only [structLoop, ht, hct, Bool.false_eq_true, if_false]
    rw [structLoop_skip elts pre' rest (i + 1) (fun g hg => h g (by simp [hg]))]
    congr 1
    simp [Nat.add_comm, Nat.add_assoc, Nat.add_left_comm]

/-- C1 counterexample: scanning a declaration whose struct type carries the
identity marker on two fields succeeds with the first tagged field's value;
All returns a full Collection and no AmbiguousIdentifierTag error exists in
the code. -/
theorem structValue_two_tags_cex :
    All [Def.mk false true true 0 false true true "full.FlagStruct" "FlagBoth"
          [Expr.compositeLit
            [FieldDef.mk ["Name"] (some "`typedecl:\"identifier\"`"),
             FieldDef.mk ["Other"] (some "`typedecl:\"identifier\"`")]
            [some (.basicLit "\"first\""), some (.basicLit "\"second\"")]]]
        "full.FlagStruct" =
      .ok { type := "full.FlagStruct", FieldName := "Name",
            Matches := [Match.mk "FlagBoth" "\"first\""] } := rfl

/-- C1 (amended): when a struct type carries the identity marker on more
than one field, the scanner silently uses the first tagged field (in field
order) as the identity: All succeeds and returns the full Collection built
from that field's name and literal value, never an ambiguity error. -/
theorem All_uses_first_identifier_field (d : Def) (typ : String)
    (pre post : List FieldDef) (f : FieldDef) (elts : List (Option Expr))
    (nm v t : String)
    (hkeep : keep typ d = true)
    (hvals : d.values = [Expr.compositeLit (pre ++ f :: post) elts])
    (hpre : ∀ g ∈ pre, ∃ tg, g.tag = some tg ∧ containsIdentTag tg = false)
    (hft : f.tag = some t) (hct : containsIdentTag t = true)
    (hnames : f.names = [nm])
    (helt : elts.get? pre.length = some (some (Expr.basicLit v)))
    (hv : v ≠ "") :
    All [d] typ = .ok { type := d.typeString, FieldName := nm,
                        Matches := [Match.mk d.name v] } := by
  have hvb : (v == "") = false := by simp [hv]
  have hsv : structValue (pre ++ f :: post) elts = .ok (nm, v) := by
    rw [structValue, structLoop_skip elts pre (f :: post) 0 hpre]
    simp only [Nat.zero_add]
    simp only [structLoop, hft, hct, if_true, hnames, List.length_cons, List.length_nil,
      List.head?_cons, helt, hvb, Bool.false_eq_true, if_false]
    simp
  have hscan : scanVals d.values "" "" = .ok (nm, v) := by
    rw [hvals]
    simp only [scanVals, hsv]
  rw [All, allLoop, if_pos hkeep, hscan]
  simp [allLoop, sortMatches]

/-- C1 witness: a struct with an untagged field, then the first tagged
field, then a second tagged field; All keeps the declaration and uses the
first tagged field's name and value. -/
theorem All_uses_first_identifier_field_witness :
    keep "full.FlagStruct"
      (Def.mk false true true 0 false true true "full.FlagStruct" "FlagX"
        [Expr.compositeLit
          [FieldDef.mk ["A"] (some "x"),
           FieldDef.mk ["Name"] (some "`typedecl:\"identifier\"`"),
           FieldDef.mk ["Other"] (some "`typedecl:\"identifier\"`")]
          [some (.basicLit "\"a\""), some (.basicLit "\"n\""), some (.basicLit "\"o\"")]]) =
      true ∧
    All [Def.mk false true true 0 false true true "full.FlagStruct" "FlagX"
          [Expr.compositeLit
            [FieldDef.mk ["A"] (some "x"),
             FieldDef.mk ["Name"] (some "`typedecl:\"identifier\"`"),
             FieldDef.mk ["Other"] (some "`typedecl:\"identifier\"`")]
            [some (.basicLit "\"a\""), some (.basicLit "\"n\""), some (.basicLit "\"o\"")]]]
        "full.FlagStruct" =
      .ok { type := "full.FlagStruct", FieldName := "Name",
            Matches := [Match.mk "FlagX" "\"n\""] } := by
  refine ⟨by decide, ?_⟩
  exact All_uses_first_identifier_field
    (Def.mk false true true 0 false true true "full.FlagStruct" "FlagX"
      [Expr.compositeLit
        [FieldDef.mk ["A"] (some "x"),
         FieldDef.mk ["Name"] (some "`typedecl:\"identifier\"`"),
         FieldDef.mk ["Other"] (some "`typedecl:\"identifier\"`")]
        [some (.basicLit "\"a\""), some (.basicLit "\"n\""), some (.basicLit "\"o\"")]])
    "full.FlagStruct"
    [FieldDef.mk ["A"] (some "x")]
    [FieldDef.mk ["Other"] (some "`typedecl:\"identifier\"`")]
    (FieldDef.mk ["Name"] (some "`typedecl:\"identifier\"`"))
    [some (.basicLit "\"a\""), some (.basicLit "\"n\""), some (.basicLit "\"o\"")]
    "Name" "\"n\"" "`typedecl:\"identifier\"`"
    (by decide) rfl
    (by
      intro g hg
      rw [List.mem_singleton] at hg
      subst hg
      exact ⟨"x", rfl, by decide⟩)
    rfl (by decide) rfl rfl (by decide)

/-- C6 counterexample: two type names where one is a suffix of the other
both survive the suffix match; the Collection's Type is whichever
definition the map enumeration yields last, so two enumeration orders of
the same definitions give structurally different Collections. -/
theorem All_order_dependent_cex :
    All [Def.mk false true true 0 false true true "pkg.Flag" "A" [.basicLit "va"],
         Def.mk false true true 0 false true true "pkg.FooFlag" "B" [.basicLit "vb"]]
        "Flag" =
      .ok { type := "pkg.FooFlag", FieldName := "",
            Matches := [Match.mk "A" "va", Match.mk "B" "vb"] } ∧
    All [Def.mk false true true 0 false true true "pkg.FooFlag" "B" [.basicLit "vb"],
         Def.mk false true true 0 false true true "pkg.Flag" "A" [.basicLit "va"]]
        "Flag" =
      .ok { type := "pkg.Flag", FieldName := "",
            Matches := [Match.mk "A" "va", Match.mk "B" "vb"] } ∧
    ({ type := "pkg.FooFlag", FieldName := "",
       Matches := [Match.mk "A" "va", Match.mk "B" "vb"] } : Collection) ≠
      { type := "pkg.Flag", FieldName := "",
        Matches := [Match.mk "A" "va", Match.mk "B" "vb"] } :=
  ⟨rfl, rfl, by decide⟩

/-- C6 (amended): the matches of every successful All are sorted ascending
by name; and when all surviving declarations share one resolved type string
and one scanned field name and have pairwise distinct names (as in a single
scanned package), All does not depend on the enumeration order of the
definitions map, so two runs on a fixed module yield structurally equal
Collections (our counterexample shows Type leaks enumeration order when
two suffix-overlapping type names both match). -/
theorem All_sorted_deterministic :
    (∀ (defs : List Def) (typ : String) (c : Collection),
      All defs typ = .ok c → c.Matches.Sorted matchLE) ∧
    (∀ (l1 l2 : List Def) (typ : String) (c : Collection),
      l1.Perm l2 → All l1 typ = .ok c →
      (∀ d1 ∈ l1, keep typ d1 = true → ∀ d2 ∈ l1, keep typ d2 = true →
        d1.typeString = d2.typeString ∧ scanFieldName d1 = scanFieldName d2) →
      ((l1.filter (keep typ)).map Def.name).Nodup →
      All l2 typ = .ok c) := by
  constructor
  · intro defs typ c h
    rw [All_char] at h
    cases hr : scanKept typ defs with
    | error e => rw [hr] at h; simp at h
    | ok xs =>
      rw [hr] at h
      simp only [Except.ok.injEq] at h
      rw [← h]
      exact sortMatches_sorted _
  · intro l1 l2 typ c hperm h1 hsame hnames
    rw [All_char] at h1
    cases hr1 : scanKept typ l1 with
    | error e => rw [hr1] at h1; simp at h1
    | ok xs1 =>
      rw [hr1] at h1
      simp only [Except.ok.injEq] at h1
      have hall1 := scanKept_allOk hr1
      have hall2 : ∀ d ∈ l2, keep typ d = true → scanOk d = true :=
        fun d hd hk => hall1 d (hperm.mem_iff.2 hd) hk
      have hx1 : xs1 = (l1.filter (keep typ)).map (fun d => (d, scanResult d)) := by
        have h' := scanKept_ok_of hall1
        rw [hr1] at h'
        simp only [Except.ok.injEq] at h'
        exact h'
      have hr2 := scanKept_ok_of hall2
      rw [All_char, hr2]
      have hkperm : (l1.filter (keep typ)).Perm (l2.filter (keep typ)) :=
        hperm.filter (keep typ)
      have hxperm :
          xs1.Perm ((l2.filter (keep typ)).map (fun d => (d, scanResult d))) := by
        rw [hx1]
        exact hkperm.map _
      have hnames1 : ((xs1.map matchOf).map Match.Name).Nodup := by
        have hcomp : ((xs1.map matchOf).map Match.Name) =
            (l1.filter (keep typ)).map Def.name := by
          rw [hx1, List.map_map, List.map_map]
          rfl
        rw [hcomp]
        exact hnames
      have hmeq :
          sortMatches ((((l2.filter (keep typ)).map (fun d => (d, scanResult d))).map
            matchOf)) = sortMatches (xs1.map matchOf) := by
        have hps : (sortMatches ((((l2.filter (keep typ)).map
            (fun d => (d, scanResult d))).map matchOf))).Perm
              (sortMatches (xs1.map matchOf)) :=
          ((sortMatches_perm _).trans (hxperm.symm.map matchOf)).trans
            (sortMatches_perm _).symm
        apply sorted_eq_of_perm hps (sortMatches_sorted _) (sortMatches_sorted _)
        have hpn : ((sortMatches ((((l2.filter (keep typ)).map
            (fun d => (d, scanResult d))).map matchOf))).map Match.Name).Perm
              ((xs1.map matchOf).map Match.Name) :=
          ((sortMatches_perm _).trans (hxperm.symm.map matchOf)).map Match.Name
        exact hpn.nodup_iff.2 hnames1
      rcases last_spec xs1 "" "" with ⟨hnil1, ht1, hf1⟩ | ⟨p1, hp1, ht1, hf1⟩
      · have hkept1 : l1.filter (keep typ) = [] := by
          rw [hnil1] at hx1
          exact (List.map_eq_nil_iff.1 hx1.symm)
        have hkept2 : l2.filter (keep typ) = [] := by
          rw [hkept1] at hkperm
          exact (List.Perm.nil_eq hkperm).symm
        rw [hkept2]
        simp only [List.map_nil]
        rw [hnil1] at h1
        simp only [List.map_nil] at h1
        rw [h1]
      · rcases last_spec ((l2.filter (keep typ)).map (fun d => (d, scanResult d))) "" ""
          with ⟨hnil2, ht2, hf2⟩ | ⟨p2, hp2, ht2, hf2⟩
        · rw [hnil2] at hxperm
          have : xs1 = [] := (List.Perm.nil_eq hxperm.symm).symm
          rw [this] at hp1
          simp at hp1
        · obtain ⟨d1', hd1k, hpd1⟩ := by
            rw [hx1] at hp1
            exact List.mem_map.1 hp1
          obtain ⟨d2', hd2k, hpd2⟩ := List.mem_map.1 hp2
          have hd1f := List.mem_filter.1 hd1k
          have hd2f := List.mem_filter.1 hd2k
          have hd2l1 : d2' ∈ l1 := hperm.mem_iff.2 hd2f.1
          have hsc := hsame d1' hd1f.1 hd1f.2 d2' hd2l1 hd2f.2
          have hT : lastTypeOf ""
              ((l2.filter (keep typ)).map (fun d => (d, scanResult d))) =
              lastTypeOf "" xs1 := by
            rw [ht2, ht1, ← hpd1, ← hpd2]
            exact hsc.1.symm
          have hF : lastFieldOf ""
              ((l2.filter (keep typ)).map (fun d => (d, scanResult d))) =
              lastFieldOf "" xs1 := by
            rw [hf2, hf1, ← hpd1, ← hpd2]
            exact hsc.2.symm
          show Except.ok _ = Except.ok c
          rw [← h1, hT, hF, hmeq]

/-- C6 witness: two enumeration orders of the same two homogeneous
definitions give the same sorted Collection. -/
theorem All_sorted_deterministic_witness :
    ([Def.mk false true true 0 false true true "p.Flag" "B" [.basicLit "vb"],
      Def.mk false true true 0 false true true "p.Flag" "A" [.basicLit "va"]].Perm
      [Def.mk false true true 0 false true true "p.Flag" "A" [.basicLit "va"],
       Def.mk false true true 0 false true true "p.Flag" "B" [.basicLit "vb"]]) ∧
    All [Def.mk false true true 0 false true true "p.Flag" "B" [.basicLit "vb"],
         Def.mk false true true 0 false true true "p.Flag" "A" [.basicLit "va"]]
        "p.Flag" =
      .ok { type := "p.Flag", FieldName := "",
            Matches := [Match.mk "A" "va", Match.mk "B" "vb"] } ∧
    All [Def.mk false true true 0 false true true "p.Flag" "A" [.basicLit "va"],
         Def.mk false true true 0 false true true "p.Flag" "B" [.basicLit "vb"]]
        "p.Flag" =
      .ok { type := "p.Flag", FieldName := "",
            Matches := [Match.mk "A" "va", Match.mk "B" "vb"] } :=
  ⟨List.Perm.swap
      (Def.mk false true true 0 false true true "p.Flag" "A" [.basicLit "va"])
      (Def.mk false true true 0 false true true "p.Flag" "B" [.basicLit "vb"]) [],
   rfl,
   All_sorted_deterministic.2
     [Def.mk false true true 0 false true true "p.Flag" "B" [.basicLit "vb"],
      Def.mk false true true 0 false true true "p.Flag" "A" [.basicLit "va"]]
     [Def.mk false true true 0 false true true "p.Flag" "A" [.basicLit "va"],
      Def.mk false true true 0 false true true "p.Flag" "B" [.basicLit "vb"]]
     "p.Flag"
     { type := "p.Flag", FieldName := "",
       Matches := [Match.mk "A" "va", Match.mk "B" "vb"] }
     (List.Perm.swap
       (Def.mk false true true 0 false true true "p.Flag" "A" [.basicLit "va"])
       (Def.mk false true true 0 false true true "p.Flag" "B" [.basicLit "vb"]) [])
     rfl
     (by
       intro d1 h1 hk1 d2 h2 hk2
       rcases List.mem_cons.1 h1 with rfl | h1' <;>
         rcases List.mem_cons.1 h2 with rfl | h2'
       · exact ⟨rfl, rfl⟩
       · rcases List.mem_cons.1 h2' with rfl | h2'' <;>
           first
           | exact ⟨rfl, rfl⟩
           | simp_all
       · rcases List.mem_cons.1 h1' with rfl | h1'' <;>
           first
           | exact ⟨rfl, rfl⟩
           | simp_all
       · rcases List.mem_cons.1 h1' with rfl | h1'' <;>
           rcases List.mem_cons.1 h2' with rfl | h2'' <;>
           first
           | exact ⟨rfl, rfl⟩
           | simp_all)
     (by decide)⟩
